import Mathlib

/-!
Verification of the Excel-Sheet-Analyser aggregation core.

The development shallowly embeds the two analyzer modules of the repository:

* `amazon_sales_analysis.py` (`AmazonSalesAnalysis`): fixed-schema analysis over
  a dataframe with `Product`, `Sales`, `Quantity`, `Category`, `Date` columns;
  the aggregations `sales_by_category`, `top_products` and the monthly resample
  shared by `monthly_trends` / `generate_excel_report`.
* `launch.py` (`FlexibleDataAnalysis` and `process_tab1`): column-mapped
  analysis with string lower-casing, numeric coercion of `Price` / `Quantity`,
  quantity defaulting, `Total_Price` derivation, `basic_statistics` and the
  pie-chart data pipeline of `create_pie_chart`.

Numeric cells are modelled as rationals; pandas/NumPy float semantics that the
claims depend on are modelled explicitly: `.round(2)` as round-half-to-even on
rationals, division producing `inf` / `-inf` / `NaN` on a zero denominator, and
NaN-skipping sums and means.
-/

/-! ## Rounding: NumPy `.round(2)` (round half to even) on rationals -/

/-- Round a rational to the nearest integer, halves to even — the rounding mode
of NumPy/pandas `.round`. -/
def rhe (q : ℚ) : ℤ :=
  let n := ⌊q⌋
  if q - n < 1/2 then n
  else if (1:ℚ)/2 < q - n then n + 1
  else if n % 2 = 0 then n else n + 1

/-- pandas `.round(2)`: round half to even at two decimal places. -/
def qround2 (q : ℚ) : ℚ := (rhe (q * 100) : ℚ) / 100

theorem rhe_near (q : ℚ) : |(rhe q : ℚ) - q| ≤ 1/2 := by
  unfold rhe
  have hfl : ((⌊q⌋ : ℤ) : ℚ) ≤ q := Int.floor_le q
  have hfu : q < (⌊q⌋ : ℚ) + 1 := Int.lt_floor_add_one q
  by_cases h1 : q - (⌊q⌋ : ℚ) < 1/2
  · simp only [h1, if_true]
    rw [abs_le]; constructor <;> linarith
  · simp only [h1, if_false]
    by_cases h2 : (1:ℚ)/2 < q - (⌊q⌋ : ℚ)
    · simp only [h2, if_true]
      rw [abs_le]; push_cast; constructor <;> linarith
    · simp only [h2, if_false]
      by_cases h3 : (⌊q⌋ : ℤ) % 2 = 0
      · simp only [h3, if_true]
        rw [abs_le]; constructor <;> linarith
      · simp only [h3, if_false]
        rw [abs_le]; push_cast; constructor <;> linarith

theorem qround2_near (q : ℚ) : |qround2 q - q| ≤ 1/200 := by
  unfold qround2
  have h := rhe_near (q * 100)
  have : (rhe (q * 100) : ℚ) / 100 - q = ((rhe (q * 100) : ℚ) - q * 100) / 100 := by ring
  rw [this, abs_div]
  rw [show |(100:ℚ)| = 100 by norm_num]
  linarith

/-! ## pandas scalar values: rationals extended with `NaN` and infinities -/

/-- A pandas float cell value as it appears in derived numeric columns:
either an actual (rational) number, `NaN`, or a signed infinity. -/
inductive PdVal where
  | num : ℚ → PdVal
  | nan : PdVal
  | inf : PdVal
  | ninf : PdVal
deriving DecidableEq, Repr

/-- IEEE-style division as performed by pandas on float columns: a zero
denominator yields `NaN` for `0/0` and a signed infinity otherwise. -/
def pdDiv (a b : ℚ) : PdVal :=
  if b = 0 then (if a = 0 then .nan else if 0 < a then .inf else .ninf)
  else .num (a / b)

/-- `.round(2)` lifted to pandas values; `NaN` and infinities round to
themselves. -/
def pdRound2 : PdVal → PdVal
  | .num q => .num (qround2 q)
  | v => v

/-- The percentage expression `metric / total * 100` followed by `.round(2)`,
with the float semantics of a zero denominator. -/
def pdPct (t total : ℚ) : PdVal :=
  if total = 0 then (if t = 0 then .nan else if 0 < t then .inf else .ninf)
  else .num (qround2 (t / total * 100))

/-- Sum of a column of pandas values, defined only when every entry is an
actual number. -/
def pdNumSum : List PdVal → Option ℚ
  | [] => some 0
  | .num q :: t => (pdNumSum t).map (q + ·)
  | _ :: _ => none

theorem pdNumSum_map_num {α : Type} (f : α → ℚ) (l : List α) :
    pdNumSum (l.map fun x => PdVal.num (f x)) = some ((l.map f).sum) := by
  induction l with
  | nil => rfl
  | cons x xs ih => simp [pdNumSum, ih]

/-! ## Generic list helpers -/

theorem sum_map_mulconst {α : Type} (f : α → ℚ) (c : ℚ) (l : List α) :
    (l.map fun x => f x * c).sum = (l.map f).sum * c := by
  induction l with
  | nil => simp
  | cons x xs ih => simp [ih]; ring

theorem sum_cast_nat (l : List ℕ) :
    ((l.sum : ℕ) : ℚ) = (l.map fun n => (n : ℚ)).sum := by
  induction l with
  | nil => simp
  | cons x xs ih => simp [ih]

/-- Summing a pointwise-close function over a list moves the sum by at most
`length * ε`. -/
theorem sum_map_close (f g : ℚ → ℚ) (ε : ℚ) (h : ∀ x, |f x - g x| ≤ ε)
    (l : List ℚ) : |(l.map f).sum - (l.map g).sum| ≤ l.length * ε := by
  induction l with
  | nil => simp
  | cons x xs ih =>
    have hx := h x
    have tri : |(f x + (xs.map f).sum) - (g x + (xs.map g).sum)| ≤
        |f x - g x| + |(xs.map f).sum - (xs.map g).sum| := by
      have : (f x + (xs.map f).sum) - (g x + (xs.map g).sum) =
          (f x - g x) + ((xs.map f).sum - (xs.map g).sum) := by ring
      rw [this]; exact abs_add _ _
    simp only [List.map_cons, List.sum_cons, List.length_cons]
    push_cast
    calc |(f x + (xs.map f).sum) - (g x + (xs.map g).sum)|
        ≤ |f x - g x| + |(xs.map f).sum - (xs.map g).sum| := tri
      _ ≤ ε + xs.length * ε := by
          exact add_le_add hx ih
      _ = (xs.length + 1) * ε := by ring

theorem one_le_sum_of_mem {l : List ℚ} (h : ∀ x ∈ l, 1 ≤ x) (hne : l ≠ []) :
    1 ≤ l.sum := by
  match l, hne with
  | x :: xs, _ =>
    have hx := h x (List.mem_cons_self x xs)
    have hxs : 0 ≤ xs.sum := by
      have : ∀ y ∈ xs, (0:ℚ) ≤ y := fun y hy =>
        le_trans (by norm_num) (h y (List.mem_cons_of_mem x hy))
      exact List.sum_nonneg this
    simp only [List.sum_cons]
    linarith

/-! ## Stable descending insertion sort

Models pandas `sort_values(..., ascending=False)` on the small aggregated
frames: elements are ordered by a numeric key, and elements with equal keys
keep their relative input order (stability).  -/

def insertDesc {α : Type} (key : α → ℚ) (x : α) : List α → List α
  | [] => [x]
  | y :: ys => if key x ≤ key y then y :: insertDesc key x ys else x :: y :: ys

def sortDesc {α : Type} (key : α → ℚ) (l : List α) : List α :=
  l.foldl (fun acc x => insertDesc key x acc) []

theorem mem_insertDesc {α : Type} (key : α → ℚ) (x : α) (l : List α) (a : α) :
    a ∈ insertDesc key x l ↔ a = x ∨ a ∈ l := by
  induction l with
  | nil => simp [insertDesc]
  | cons y ys ih =>
    simp only [insertDesc]
    by_cases h : key x ≤ key y
    · simp only [h, if_true, List.mem_cons, ih]
      tauto
    · simp only [h, if_false, List.mem_cons]

theorem length_insertDesc {α : Type} (key : α → ℚ) (x : α) (l : List α) :
    (insertDesc key x l).length = l.length + 1 := by
  induction l with
  | nil => rfl
  | cons y ys ih =>
    simp only [insertDesc]
    by_cases h : key x ≤ key y
    · simp [h, ih]
    · simp [h]

theorem mem_sortDesc {α : Type} (key : α → ℚ) (l : List α) (a : α) :
    a ∈ sortDesc key l ↔ a ∈ l := by
  have aux : ∀ (l acc : List α),
      (a ∈ l.foldl (fun acc x => insertDesc key x acc) acc ↔ a ∈ acc ∨ a ∈ l) := by
    intro l
    induction l with
    | nil => intro acc; simp
    | cons x xs ih =>
      intro acc
      simp only [List.foldl_cons, ih, mem_insertDesc, List.mem_cons]
      tauto
  simpa using aux l []

theorem length_sortDesc {α : Type} (key : α → ℚ) (l : List α) :
    (sortDesc key l).length = l.length := by
  have aux : ∀ (l acc : List α),
      (l.foldl (fun acc x => insertDesc key x acc) acc).length =
        acc.length + l.length := by
    intro l
    induction l with
    | nil => intro acc; simp
    | cons x xs ih =>
      intro acc
      simp only [List.foldl_cons, ih, length_insertDesc, List.length_cons]
      omega
  simpa using aux l []

theorem sum_map_insertDesc {α : Type} (key f : α → ℚ) (x : α) (l : List α) :
    ((insertDesc key x l).map f).sum = f x + (l.map f).sum := by
  induction l with
  | nil => simp [insertDesc]
  | cons y ys ih =>
    simp only [insertDesc]
    by_cases h : key x ≤ key y
    · simp only [h, if_true, List.map_cons, List.sum_cons, ih]; ring
    · simp only [h, if_false, List.map_cons, List.sum_cons]

theorem sum_map_sortDesc {α : Type} (key f : α → ℚ) (l : List α) :
    ((sortDesc key l).map f).sum = (l.map f).sum := by
  have aux : ∀ (l acc : List α),
      ((l.foldl (fun acc x => insertDesc key x acc) acc).map f).sum =
        (acc.map f).sum + (l.map f).sum := by
    intro l
    induction l with
    | nil => intro acc; simp
    | cons x xs ih =>
      intro acc
      simp only [List.foldl_cons, ih, sum_map_insertDesc, List.map_cons,
        List.sum_cons]
      ring
  simpa using aux l []

/-- Inserting preserves descending sortedness of keys. -/
theorem pairwise_ge_insertDesc {α : Type} (key : α → ℚ) (x : α) (l : List α)
    (h : l.Pairwise (fun a b => key b ≤ key a)) :
    (insertDesc key x l).Pairwise (fun a b => key b ≤ key a) := by
  induction l with
  | nil => simp [insertDesc]
  | cons y ys ih =>
    simp only [insertDesc]
    rcases List.pairwise_cons.mp h with ⟨hy, hys⟩
    by_cases hk : key x ≤ key y
    · simp only [hk, if_true, List.pairwise_cons]
      refine ⟨?_, ih hys⟩
      intro a ha
      rcases (mem_insertDesc key x ys a).mp ha with rfl | ha
      · exact hk
      · exact hy a ha
    · simp only [hk, if_false, List.pairwise_cons]
      push_neg at hk
      refine ⟨?_, hy, hys⟩
      intro a ha
      rcases List.mem_cons.mp ha with rfl | ha
      · exact le_of_lt hk
      · exact le_trans (hy a ha) (le_of_lt hk)

theorem pairwise_ge_sortDesc {α : Type} (key : α → ℚ) (l : List α) :
    (sortDesc key l).Pairwise (fun a b => key b ≤ key a) := by
  have aux : ∀ (l acc : List α),
      acc.Pairwise (fun a b => key b ≤ key a) →
      (l.foldl (fun acc x => insertDesc key x acc) acc).Pairwise
        (fun a b => key b ≤ key a) := by
    intro l
    induction l with
    | nil => intro acc h; simpa using h
    | cons x xs ih =>
      intro acc h
      exact ih _ (pairwise_ge_insertDesc key x acc h)
  exact aux l [] (by simp)

/-- Stability refined by a tag: inserting an element whose tag is strictly
larger than every tag already present preserves the combined
"key strictly descending, or keys equal and tags strictly ascending" order. -/
theorem pairwise_keytag_insertDesc {α : Type} (key : α → ℚ) (tag : α → String)
    (x : α) (l : List α)
    (hl : l.Pairwise (fun a b => key b < key a ∨ (key a = key b ∧ tag a < tag b)))
    (hord : l.Pairwise (fun a b => key b ≤ key a))
    (htag : ∀ a ∈ l, tag a < tag x) :
    (insertDesc key x l).Pairwise
      (fun a b => key b < key a ∨ (key a = key b ∧ tag a < tag b)) := by
  induction l with
  | nil => simp [insertDesc]
  | cons y ys ih =>
    simp only [insertDesc]
    rcases List.pairwise_cons.mp hl with ⟨hy, hys⟩
    rcases List.pairwise_cons.mp hord with ⟨hyo, hyso⟩
    by_cases hk : key x ≤ key y
    · simp only [hk, if_true, List.pairwise_cons]
      refine ⟨?_, ih hys hyso (fun a ha => htag a (List.mem_cons_of_mem y ha))⟩
      intro a ha
      rcases (mem_insertDesc key x ys a).mp ha with rfl | ha
      · rcases lt_or_eq_of_le hk with hlt | heq
        · exact Or.inl hlt
        · exact Or.inr ⟨heq.symm, htag y (List.mem_cons_self y ys)⟩
      · exact hy a ha
    · simp only [hk, if_false, List.pairwise_cons]
      push_neg at hk
      constructor
      · intro a ha
        rcases List.mem_cons.mp ha with rfl | ha
        · exact Or.inl hk
        · exact Or.inl (lt_of_le_of_lt (hyo a ha) hk)
      · exact ⟨hy, hys⟩

/-- Sorting a list whose tags are strictly ascending with the stable
descending sort yields the combined key/tag order: keys descend, and on key
ties tags ascend. -/
theorem pairwise_keytag_sortDesc {α : Type} (key : α → ℚ) (tag : α → String)
    (l : List α) (h : l.Pairwise (fun a b => tag a < tag b)) :
    (sortDesc key l).Pairwise
      (fun a b => key b < key a ∨ (key a = key b ∧ tag a < tag b)) := by
  have aux : ∀ (l acc : List α),
      acc.Pairwise (fun a b => key b < key a ∨ (key a = key b ∧ tag a < tag b)) →
      acc.Pairwise (fun a b => key b ≤ key a) →
      (∀ a ∈ acc, ∀ b ∈ l, tag a < tag b) →
      l.Pairwise (fun a b => tag a < tag b) →
      (l.foldl (fun acc x => insertDesc key x acc) acc).Pairwise
        (fun a b => key b < key a ∨ (key a = key b ∧ tag a < tag b)) := by
    intro l
    induction l with
    | nil => intro acc h1 _ _ _; simpa using h1
    | cons x xs ih =>
      intro acc h1 h2 h3 h4
      rcases List.pairwise_cons.mp h4 with ⟨hx, hxs⟩
      refine ih _ ?_ ?_ ?_ hxs
      · exact pairwise_keytag_insertDesc key tag x acc h1 h2
          (fun a ha => h3 a ha x (List.mem_cons_self x xs))
      · exact pairwise_ge_insertDesc key x acc h2
      · intro a ha b hb
        rcases (mem_insertDesc key x acc a).mp ha with rfl | ha
        · exact hx b hb
        · exact h3 a ha b (List.mem_cons_of_mem x hb)
  exact aux l [] (by simp) (by simp) (by simp) h

/-! ## Ascending insertion sort on strings

Models the key-sorting that pandas `groupby(..., sort=True)` (the default)
applies to group labels. -/

def insertAsc (x : String) : List String → List String
  | [] => [x]
  | y :: ys => if x < y then x :: y :: ys else y :: insertAsc x ys

def aSortStrings (l : List String) : List String :=
  l.foldl (fun acc x => insertAsc x acc) []

theorem insertAsc_perm (x : String) (l : List String) :
    List.Perm (insertAsc x l) (x :: l) := by
  induction l with
  | nil => rfl
  | cons y ys ih =>
    simp only [insertAsc]
    by_cases h : x < y
    · simp [h]
    · simp only [h, if_false]
      exact List.Perm.trans (List.Perm.cons y ih) (List.Perm.swap x y ys)

theorem aSortStrings_perm (l : List String) :
    List.Perm (aSortStrings l) l := by
  have aux : ∀ (l acc : List String),
      List.Perm (l.foldl (fun acc x => insertAsc x acc) acc) (acc ++ l) := by
    intro l
    induction l with
    | nil => intro acc; simp
    | cons x xs ih =>
      intro acc
      refine List.Perm.trans (ih (insertAsc x acc)) ?_
      refine List.Perm.trans (List.Perm.append_right xs (insertAsc_perm x acc)) ?_
      exact List.perm_middle.symm
  simpa using aux l []

theorem mem_aSortStrings (l : List String) (a : String) :
    a ∈ aSortStrings l ↔ a ∈ l :=
  (aSortStrings_perm l).mem_iff

theorem pairwise_le_insertAsc (x : String) (l : List String)
    (h : l.Pairwise (· ≤ ·)) : (insertAsc x l).Pairwise (· ≤ ·) := by
  induction l with
  | nil => simp [insertAsc]
  | cons y ys ih =>
    rcases List.pairwise_cons.mp h with ⟨hy, hys⟩
    simp only [insertAsc]
    by_cases hxy : x < y
    · simp only [hxy, if_true, List.pairwise_cons]
      refine ⟨?_, hy, hys⟩
      intro a ha
      rcases List.mem_cons.mp ha with rfl | ha
      · exact le_of_lt hxy
      · exact le_trans (le_of_lt hxy) (hy a ha)
    · simp only [hxy, if_false, List.pairwise_cons]
      refine ⟨?_, ih hys⟩
      intro a ha
      rcases List.mem_cons.mp (((insertAsc_perm x ys).mem_iff).mp ha) with rfl | ha2
      · exact le_of_not_lt hxy
      · exact hy a ha2

theorem pairwise_le_aSortStrings (l : List String) :
    (aSortStrings l).Pairwise (· ≤ ·) := by
  have aux : ∀ (l acc : List String), acc.Pairwise (· ≤ ·) →
      (l.foldl (fun acc x => insertAsc x acc) acc).Pairwise (· ≤ ·) := by
    intro l
    induction l with
    | nil => intro acc h; simpa using h
    | cons x xs ih => intro acc h; exact ih _ (pairwise_le_insertAsc x acc h)
  exact aux l [] (by simp)

/-- Sorting a duplicate-free list of strings yields strictly ascending
order. -/
theorem pairwise_lt_aSortStrings (l : List String) (h : l.Nodup) :
    (aSortStrings l).Pairwise (· < ·) := by
  have hnd : (aSortStrings l).Nodup := ((aSortStrings_perm l).nodup_iff).mpr h
  have hle := pairwise_le_aSortStrings l
  have := List.Pairwise.and hle hnd
  exact this.imp (fun hab => lt_of_le_of_ne hab.1 hab.2)

/-! ## First-occurrence deduplication

Models pandas `unique` / the distinct group keys: keeps the first occurrence
of each value, in encounter order. -/

def firstOccur {α : Type} [DecidableEq α] (l : List α) : List α :=
  l.foldl (fun acc x => if x ∈ acc then acc else acc ++ [x]) []

theorem mem_firstOccur {α : Type} [DecidableEq α] (l : List α) (a : α) :
    a ∈ firstOccur l ↔ a ∈ l := by
  have aux : ∀ (l acc : List α),
      (a ∈ l.foldl (fun acc x => if x ∈ acc then acc else acc ++ [x]) acc ↔
        a ∈ acc ∨ a ∈ l) := by
    intro l
    induction l with
    | nil => intro acc; simp
    | cons x xs ih =>
      intro acc
      simp only [List.foldl_cons]
      by_cases hx : x ∈ acc
      · simp only [hx, if_true, ih, List.mem_cons]
        constructor
        · rintro (h | h)
          · exact Or.inl h
          · exact Or.inr (Or.inr h)
        · rintro (h | rfl | h)
          · exact Or.inl h
          · exact Or.inl hx
          · exact Or.inr h
      · simp only [hx, if_false, ih, List.mem_append, List.mem_singleton,
          List.mem_cons]
        tauto
  simpa using aux l []

theorem nodup_firstOccur {α : Type} [DecidableEq α] (l : List α) :
    (firstOccur l).Nodup := by
  have aux : ∀ (l acc : List α), acc.Nodup →
      (l.foldl (fun acc x => if x ∈ acc then acc else acc ++ [x]) acc).Nodup := by
    intro l
    induction l with
    | nil => intro acc h; simpa using h
    | cons x xs ih =>
      intro acc h
      simp only [List.foldl_cons]
      by_cases hx : x ∈ acc
      · simp only [hx, if_true]; exact ih acc h
      · simp only [hx, if_false]
        refine ih _ ?_
        rw [List.nodup_append]
        exact ⟨h, List.nodup_singleton x, by simpa using hx⟩
  exact aux l [] (by simp)

theorem firstOccur_ne_nil {α : Type} [DecidableEq α] (l : List α)
    (h : l ≠ []) : firstOccur l ≠ [] := by
  intro hcon
  match l, h with
  | x :: xs, _ =>
    have : x ∈ firstOccur (x :: xs) := (mem_firstOccur _ x).mpr (by simp)
    rw [hcon] at this
    exact absurd this (List.not_mem_nil x)

/-! ## Consecutive month keys and list min/max (for resampling) -/

def monthsFrom (k : ℕ) : ℕ → List ℕ
  | 0 => []
  | n + 1 => k :: monthsFrom (k + 1) n

theorem mem_monthsFrom (n : ℕ) : ∀ (k m : ℕ),
    m ∈ monthsFrom k n ↔ k ≤ m ∧ m < k + n := by
  induction n with
  | zero => intro k m; simp [monthsFrom]
  | succ n ih =>
    intro k m
    simp only [monthsFrom, List.mem_cons, ih]
    omega

theorem length_monthsFrom (n : ℕ) : ∀ k, (monthsFrom k n).length = n := by
  induction n with
  | zero => intro k; rfl
  | succ n ih => intro k; simp [monthsFrom, ih]

theorem pairwise_lt_monthsFrom (n : ℕ) : ∀ k,
    (monthsFrom k n).Pairwise (· < ·) := by
  induction n with
  | zero => intro k; simp [monthsFrom]
  | succ n ih =>
    intro k
    simp only [monthsFrom, List.pairwise_cons]
    refine ⟨?_, ih (k + 1)⟩
    intro m hm
    exact lt_of_lt_of_le (Nat.lt_succ_self k) ((mem_monthsFrom n (k+1) m).mp hm).1

theorem foldl_min_le_init (l : List ℕ) : ∀ a, l.foldl Nat.min a ≤ a := by
  induction l with
  | nil => intro a; simp
  | cons x xs ih =>
    intro a
    simp only [List.foldl_cons]
    exact le_trans (ih (Nat.min a x)) (Nat.min_le_left a x)

theorem foldl_min_le_mem (l : List ℕ) : ∀ a, ∀ x ∈ l, l.foldl Nat.min a ≤ x := by
  induction l with
  | nil => intro a x hx; simp at hx
  | cons y ys ih =>
    intro a x hx
    rcases List.mem_cons.mp hx with rfl | hx
    · exact le_trans (foldl_min_le_init ys (Nat.min a x)) (Nat.min_le_right a x)
    · exact ih (Nat.min a y) x hx

theorem le_foldl_min (l : List ℕ) : ∀ a c, c ≤ a → (∀ x ∈ l, c ≤ x) →
    c ≤ l.foldl Nat.min a := by
  induction l with
  | nil => intro a c hc _; simpa using hc
  | cons y ys ih =>
    intro a c hc h
    simp only [List.foldl_cons]
    exact ih _ c (le_min hc (h y (by simp))) (fun x hx => h x (by simp [hx]))

theorem init_le_foldl_max (l : List ℕ) : ∀ a, a ≤ l.foldl Nat.max a := by
  induction l with
  | nil => intro a; simp
  | cons x xs ih =>
    intro a
    simp only [List.foldl_cons]
    exact le_trans (Nat.le_max_left a x) (ih (Nat.max a x))

theorem mem_le_foldl_max (l : List ℕ) : ∀ a, ∀ x ∈ l, x ≤ l.foldl Nat.max a := by
  induction l with
  | nil => intro a x hx; simp at hx
  | cons y ys ih =>
    intro a x hx
    rcases List.mem_cons.mp hx with rfl | hx
    · exact le_trans (Nat.le_max_right a x) (init_le_foldl_max ys (Nat.max a x))
    · exact ih (Nat.max a y) x hx

theorem foldl_max_le (l : List ℕ) : ∀ a c, a ≤ c → (∀ x ∈ l, x ≤ c) →
    l.foldl Nat.max a ≤ c := by
  induction l with
  | nil => intro a c hc _; simpa using hc
  | cons y ys ih =>
    intro a c hc h
    simp only [List.foldl_cons]
    exact ih _ c (max_le hc (h y (by simp))) (fun x hx => h x (by simp [hx]))

/-! ## Data model of `amazon_sales_analysis.py` (`AmazonSalesAnalysis`)

The loaded dataframe has columns `Product`, `Sales`, `Quantity`, `Category`,
`Date`.  Rows carry a value for each canonical field; frame-level flags record
which columns actually exist in the loaded sheet.  Accessing a column whose
flag is false models the `KeyError` pandas raises on a missing column. -/

/-- A calendar timestamp as used by the `Date` column. -/
structure ADate where
  year : ℕ
  month : ℕ
  day : ℕ
deriving DecidableEq, Repr

/-- Strict chronological order on dates. -/
def dateLt (a b : ADate) : Prop :=
  a.year < b.year ∨ (a.year = b.year ∧
    (a.month < b.month ∨ (a.month = b.month ∧ a.day < b.day)))

instance : DecidablePred fun p : ADate × ADate => dateLt p.1 p.2 := by
  intro p; unfold dateLt; infer_instance

instance (a b : ADate) : Decidable (dateLt a b) := by
  unfold dateLt; infer_instance

/-- Linear month index of a date (months since year `0`). -/
def monthKey (d : ADate) : ℕ := d.year * 12 + (d.month - 1)

def isLeap (y : ℕ) : Bool := (y % 4 = 0 && y % 100 ≠ 0) || y % 400 = 0

def daysInMonth (y m : ℕ) : ℕ :=
  if m = 2 then (if isLeap y then 29 else 28)
  else if m = 4 ∨ m = 6 ∨ m = 9 ∨ m = 11 then 30
  else 31

/-- The last calendar day of the month with linear index `k` — the label
pandas `resample('M')` gives each monthly bucket. -/
def monthEndOf (k : ℕ) : ADate :=
  ⟨k / 12, k % 12 + 1, daysInMonth (k / 12) (k % 12 + 1)⟩

theorem monthKey_monthEndOf (k : ℕ) : monthKey (monthEndOf k) = k := by
  unfold monthKey monthEndOf
  simp only
  omega

theorem dateLt_monthEndOf {k1 k2 : ℕ} (h : k1 < k2) :
    dateLt (monthEndOf k1) (monthEndOf k2) := by
  unfold dateLt monthEndOf
  simp only
  omega

/-- A row of the loaded sales sheet. -/
structure ARow where
  product : String
  sales : ℚ
  quantity : ℚ
  category : String
  date : ADate
deriving DecidableEq, Repr

/-- The analyzer's dataframe: rows plus column-presence flags.  A field of a
row is only meaningful when the corresponding column flag is set. -/
structure ADf where
  rows : List ARow
  hasProduct : Bool
  hasSales : Bool
  hasQuantity : Bool
  hasCategory : Bool
  hasDate : Bool
deriving DecidableEq, Repr

/-- The pandas error raised by accessing a column absent from the frame. -/
inductive PdErr where
  | keyError : String → PdErr
deriving DecidableEq, Repr

/-- Result of an `AmazonSalesAnalysis` method: the message string returned
when no data is loaded (`self.df is None`), an uncaught pandas error, or the
produced table. -/
inductive AResult (α : Type) where
  | msg : String → AResult α
  | err : PdErr → AResult α
  | table : α → AResult α
deriving DecidableEq, Repr

/-- Whether the method terminated with an uncaught exception. -/
def AResult.isErr {α : Type} : AResult α → Bool
  | .err _ => true
  | _ => false

/-! ### `sales_by_category` -/

/-- One group of the `groupby('Category')` aggregation after
`.round(2)` and column renaming. -/
structure CatAgg where
  name : String
  totalSales : ℚ
  avgSales : ℚ
  orders : ℕ
  units : ℚ
deriving DecidableEq, Repr

/-- A row of the final `sales_by_category` table, with the two percentage
columns appended. -/
structure CatRow where
  name : String
  totalSales : ℚ
  avgSales : ℚ
  orders : ℕ
  units : ℚ
  pctSales : PdVal
  pctOrders : PdVal
deriving DecidableEq, Repr

/-- The table built by `sales_by_category`:
`groupby('Category').agg({'Sales': ['sum','mean','count'], 'Quantity':'sum'})
.round(2)`, sorted descending on `Total Sales`, then the `Sales(%)` and
`Orders(%)` columns computed against the column sums and rounded to two
decimals.  `groupby` sorts the group labels ascending (pandas default); the
revenue sort is modelled as a stable sort on that label-sorted frame. -/
def catAggBase (rows : List ARow) : List CatAgg :=
  (aSortStrings (firstOccur (rows.map (·.category)))).map (fun k =>
    let g := rows.filter (fun r => r.category = k)
    { name := k
      totalSales := qround2 ((g.map (·.sales)).sum)
      avgSales := qround2 ((g.map (·.sales)).sum / (g.length : ℚ))
      orders := g.length
      units := qround2 ((g.map (·.quantity)).sum) })

/-- The aggregated frame after `sort_values('Total Sales', ascending=False)`. -/
def catSorted (rows : List ARow) : List CatAgg :=
  sortDesc (fun x => x.totalSales) (catAggBase rows)

/-- The denominator of `Sales(%)`: the sum of the (rounded) `Total Sales`
column. -/
def catSalesTotal (rows : List ARow) : ℚ :=
  ((catSorted rows).map (·.totalSales)).sum

/-- The denominator of `Orders(%)`: the sum of the `Number of Orders`
column. -/
def catOrdersTotal (rows : List ARow) : ℚ :=
  ((catSorted rows).map (fun x => ((x.orders : ℕ) : ℚ))).sum

/-- One final row: the aggregate with both percentage columns appended. -/
def catRowOf (rows : List ARow) (x : CatAgg) : CatRow :=
  { name := x.name, totalSales := x.totalSales, avgSales := x.avgSales,
    orders := x.orders, units := x.units,
    pctSales := pdPct x.totalSales (catSalesTotal rows),
    pctOrders := pdPct (x.orders : ℚ) (catOrdersTotal rows) }

def salesByCategoryTable (rows : List ARow) : List CatRow :=
  (catSorted rows).map (catRowOf rows)

/-- `AmazonSalesAnalysis.sales_by_category`: returns the message string when
no data is loaded, raises `KeyError` when one of the accessed columns is
absent, and otherwise produces the category table. -/
def salesByCategory : Option ADf → AResult (List CatRow)
  | none => .msg "First load excel data"
  | some df =>
    if df.hasCategory = false then .err (.keyError "Category")
    else if df.hasSales = false then .err (.keyError "Sales")
    else if df.hasQuantity = false then .err (.keyError "Quantity")
    else .table (salesByCategoryTable df.rows)

/-! ### `top_products` -/

/-- A row of the `top_products` table: summed, rounded `Sales` and
`Quantity` per product and the derived `Average Price`. -/
structure ProdRow where
  name : String
  sales : ℚ
  quantity : ℚ
  avgPrice : PdVal
deriving DecidableEq, Repr

/-- The table built by `top_products(n)`:
`groupby('Product').agg({'Sales':'sum','Quantity':'sum'}).round(2)`, then
`Average Price = (Sales / Quantity).round(2)` (float division: a zero quantity
yields an infinity or `NaN`, not an error), sorted descending on `Sales`,
then `head(n)`. -/
def topAgg (rows : List ARow) : List ProdRow :=
  (aSortStrings (firstOccur (rows.map (·.product)))).map (fun k =>
    let g := rows.filter (fun r => r.product = k)
    let s := qround2 ((g.map (·.sales)).sum)
    let q := qround2 ((g.map (·.quantity)).sum)
    { name := k, sales := s, quantity := q,
      avgPrice := pdRound2 (pdDiv s q) })

def topProductsTable (rows : List ARow) (n : ℕ) : List ProdRow :=
  (sortDesc (fun x => x.sales) (topAgg rows)).take n

/-- `AmazonSalesAnalysis.top_products`. -/
def topProducts (odf : Option ADf) (n : ℕ) : AResult (List ProdRow) :=
  match odf with
  | none => .msg "First load Excel data"
  | some df =>
    if df.hasProduct = false then .err (.keyError "Product")
    else if df.hasSales = false then .err (.keyError "Sales")
    else if df.hasQuantity = false then .err (.keyError "Quantity")
    else .table (topProductsTable df.rows n)

/-! ### Monthly resampling (`monthly_trends` / `generate_excel_report`) -/

/-- A bucket of the monthly resample: the month-end label with the summed
`Sales` and `Quantity` of the rows falling in that calendar month. -/
structure TrendRow where
  date : ADate
  sales : ℚ
  quantity : ℚ
deriving DecidableEq, Repr

/-- Smallest month index appearing among the rows (0 for an empty frame). -/
def minMonthKey : List ARow → ℕ
  | [] => 0
  | r :: rs => ((r :: rs).map (fun x => monthKey x.date)).foldl Nat.min
      (monthKey r.date)

/-- Largest month index appearing among the rows (0 for an empty frame). -/
def maxMonthKey : List ARow → ℕ
  | [] => 0
  | r :: rs => ((r :: rs).map (fun x => monthKey x.date)).foldl Nat.max
      (monthKey r.date)

/-- One resample bucket: the rows of month `k` summed, labelled month-end. -/
def trendEntry (rows : List ARow) (k : ℕ) : TrendRow :=
  let g := rows.filter (fun r => monthKey r.date = k)
  { date := monthEndOf k,
    sales := (g.map (·.sales)).sum,
    quantity := (g.map (·.quantity)).sum }

/-- The table built by
`df.set_index('Date').resample('M').agg({'Sales':'sum','Quantity':'sum'})`:
one bucket for every calendar month from the earliest to the latest date in
the frame (pandas fills the intermediate months, summing an empty bucket to
zero), each labelled with the last day of its month. -/
def monthlyTrendsTable (rows : List ARow) : List TrendRow :=
  match rows with
  | [] => []
  | _ :: _ =>
    (monthsFrom (minMonthKey rows) (maxMonthKey rows + 1 - minMonthKey rows)).map
      (trendEntry rows)

/-- `AmazonSalesAnalysis.monthly_trends` (shared resample expression, also
used verbatim by `generate_excel_report` for the `Monthly Trends` sheet). -/
def monthlyTrends (odf : Option ADf) : AResult (List TrendRow) :=
  match odf with
  | none => .msg "First load Excel sheet"
  | some df =>
    if df.hasDate = false then .err (.keyError "Date")
    else if df.hasSales = false then .err (.keyError "Sales")
    else if df.hasQuantity = false then .err (.keyError "Quantity")
    else .table (monthlyTrendsTable df.rows)

/-! ## Data model of `launch.py` (`FlexibleDataAnalysis`)

The column-mapped dataframe after `process_tab1` / `process_tab2` renames the
user-selected columns to `Item`, `Price`, optionally `Quantity`, `Type` and
the chart columns.  Cells are loosely typed: string, number or missing
(`NaN`). -/

/-- A loosely-typed dataframe cell. -/
inductive Cell where
  | str : String → Cell
  | num : ℚ → Cell
  | missing : Cell
deriving DecidableEq, Repr

/-- Decimal-number parsing as performed by `pd.to_numeric` on strings
(optional sign, integer and fractional digits; scientific notation is not
needed by any claim and is omitted). -/
def parseNat? (l : List Char) : Option ℕ :=
  match l with
  | [] => none
  | _ => l.foldl (fun acc c =>
      match acc with
      | some n => if c.isDigit then some (n * 10 + (c.toNat - 48)) else none
      | none => none) (some 0)

def parseNum (s : String) : Option ℚ :=
  let cs := s.data
  let p : ℚ × List Char :=
    match cs with
    | '-' :: r => (-1, r)
    | '+' :: r => (1, r)
    | _ => (1, cs)
  match (p.2).splitOn '.' with
  | [ip] => (parseNat? ip).map (fun n => p.1 * n)
  | [ip, fp] =>
    match parseNat? ip, parseNat? fp with
    | some n, some f => some (p.1 * ((n : ℚ) + (f : ℚ) / (10 ^ fp.length)))
    | some n, none => if fp = [] then some (p.1 * n) else none
    | none, some f => if ip = [] then some (p.1 * ((f : ℚ) / (10 ^ fp.length)))
        else none
    | none, none => none
  | _ => none

/-- `pd.to_numeric(col, errors='coerce')` on a single cell: numbers pass
through, parseable strings become numbers, everything else becomes `NaN`. -/
def toNumeric : Cell → Cell
  | .num q => .num q
  | .str s => match parseNum s with
    | some q => .num q
    | none => .missing
  | .missing => .missing

def lowerStr (s : String) : String := ⟨s.data.map Char.toLower⟩

/-- `.str.lower()` on a cell of an object-dtype column: strings are
lower-cased, any non-string element becomes `NaN`. -/
def strLowerCell : Cell → Cell
  | .str s => .str (lowerStr s)
  | _ => .missing

/-- A column has pandas `object` dtype when it holds at least one string. -/
def isObjectCol (cells : List Cell) : Bool :=
  cells.any fun c => match c with | .str _ => true | _ => false

/-- The constructor's lower-casing loop applied to one column: only columns
of `object` dtype are touched. -/
def lowerColIfObj (cells : List Cell) : List Cell :=
  if isObjectCol cells then cells.map strLowerCell else cells

/-- Elementwise `Price * Quantity`; a missing operand gives a missing
product. -/
def cellMul : Cell → Cell → Cell
  | .num a, .num b => .num (a * b)
  | _, _ => .missing

/-- The column-mapped dataframe.  `Item` is always present (it is a required
mapping); `Price`, `Quantity`, `Type` and `Total_Price` may be absent;
`otherCols` holds the optional chart columns by name. -/
structure FDf where
  items : List Cell
  prices : Option (List Cell)
  quantityCol : Option (List Cell)
  typeCol : Option (List Cell)
  totalCol : Option (List Cell)
  otherCols : List (String × List Cell)
deriving DecidableEq, Repr

/-- The row count `len(df)`. -/
def FDf.nrows (df : FDf) : ℕ := df.items.length

/-- Net effect of `FlexibleDataAnalysis.__init__` on the dataframe object it
was handed.  The constructor stores the caller's frame without copying
(`self.df = df`), so every column assignment below lands in the caller's
object:

* if `Price` is absent the constructor shows an error and returns early,
  leaving the frame untouched;
* every `object`-dtype column is lower-cased (`.str.lower()`, non-strings
  becoming `NaN`);
* `Price` and `Quantity` are coerced with `pd.to_numeric(errors='coerce')`;
* a constant-1 `Quantity` column of `len(df)` rows is added when absent;
* `Total_Price = Price * Quantity` is derived elementwise. -/
def initDf (df : FDf) : FDf :=
  match df.prices with
  | none => df
  | some ps =>
    let items := lowerColIfObj df.items
    let ps := lowerColIfObj ps
    let qcol := df.quantityCol.map lowerColIfObj
    let tcol := df.typeCol.map lowerColIfObj
    let others := df.otherCols.map (fun p => (p.1, lowerColIfObj p.2))
    let ps := ps.map toNumeric
    let qs := match qcol with
      | some q => q.map toNumeric
      | none => List.replicate df.items.length (Cell.num 1)
    { items := items, prices := some ps, quantityCol := some qs,
      typeCol := tcol, totalCol := some (List.zipWith cellMul ps qs),
      otherCols := others }

/-- A tiny object store: Python dataframe objects addressed by reference.
`FlexibleDataAnalysis.__init__` receives a reference, so its column
assignments mutate the object the caller still holds. -/
def runInit (store : List FDf) (ref : ℕ) : List FDf :=
  match store[ref]? with
  | some df => store.set ref (initDf df)
  | none => store

/-! ### `basic_statistics` (launch.py) -/

def toQ : Cell → Option ℚ
  | .num q => some q
  | _ => none

/-- The valid (non-missing, numeric) values of a column. -/
def validQ (cells : List Cell) : List ℚ := cells.filterMap toQ

/-- pandas `Series.sum()`: skips `NaN`; an all-missing column sums to 0. -/
def qSumValid (cells : List Cell) : ℚ := (validQ cells).sum

/-- pandas `Series.mean()`: mean over the valid values only; `NaN` (here
`none`) when there is no valid value. -/
def qMeanValid (cells : List Cell) : Option ℚ :=
  match validQ cells with
  | [] => none
  | v => some (v.sum / (v.length : ℚ))

/-- pandas `Series.max()` skipping `NaN`. -/
def qMaxValid (cells : List Cell) : Option ℚ :=
  match validQ cells with
  | [] => none
  | x :: xs => some (xs.foldl max x)

/-- pandas `Series.min()` skipping `NaN`. -/
def qMinValid (cells : List Cell) : Option ℚ :=
  match validQ cells with
  | [] => none
  | x :: xs => some (xs.foldl min x)

/-- The numeric content of the `basic_statistics` series (the `$`/`,`
formatting is presentation only); `Option` fields are reported as `N/A`
when `none`. -/
structure FStats where
  totalRevenue : ℚ
  avgUnitPrice : Option ℚ
  maxUnitPrice : Option ℚ
  minUnitPrice : Option ℚ
  totalQuantity : ℚ
  avgTransactionValue : ℚ
  uniqueItems : ℕ
  totalTransactions : ℕ
  numCategories : Option ℕ
deriving DecidableEq, Repr

/-- `FlexibleDataAnalysis.basic_statistics`: computes the statistics battery
inside a `try` block; any exception (a missing `Price`/`Quantity`/
`Total_Price` column, or the `ZeroDivisionError` of
`total_revenue / len(df)` on an empty frame) is caught and an error series
returned instead — modelled as `none`. -/
def basicStatistics (df : FDf) : Option FStats :=
  match df.prices, df.quantityCol, df.totalCol with
  | some ps, some qs, some ts =>
    if df.nrows = 0 then none
    else some
      { totalRevenue := qSumValid ts
        avgUnitPrice := qMeanValid ps
        maxUnitPrice := qMaxValid ps
        minUnitPrice := qMinValid ps
        totalQuantity := qSumValid qs
        avgTransactionValue := qSumValid ts / (df.nrows : ℚ)
        uniqueItems := (firstOccur df.items).length
        totalTransactions := df.nrows
        numCategories := df.typeCol.map (fun tc => (firstOccur tc).length) }
  | _, _, _ => none

/-! ### `process_tab1` validation -/

/-- The fatal mapping error of the spec: the selected `Price` column holds no
numerically coercible value.  `process_tab1` reports it with the column's
name. -/
structure UnusableColumnError where
  column : String
deriving DecidableEq, Repr

/-- `process_tab1` (overall-analysis tab): before any analyzer is built it
coerces the selected `Price` column with `pd.to_numeric(errors='coerce')` and,
if no valid numeric value results, reports the offending column and stops;
otherwise it constructs `FlexibleDataAnalysis` (mutating the frame) and
computes the statistics. -/
def processTab1 (priceCol : String) (df : FDf) :
    Except UnusableColumnError (Option FStats) :=
  if ((df.prices.getD []).map toNumeric).all (· = Cell.missing) then
    .error ⟨priceCol⟩
  else .ok (basicStatistics (initDf df))

/-! ### `create_pie_chart` data pipeline -/

/-- pandas `value_counts()` over the lower-cased column: distinct values with
their multiplicities, sorted descending by count. -/
def valueCounts (vals : List String) : List (String × ℕ) :=
  sortDesc (fun p => ((p.2 : ℕ) : ℚ))
    ((firstOccur vals).map (fun v => (v, (vals.filter (· = v)).length)))

/-- Total count before any collapsing. -/
def preTotal (vals : List String) : ℚ :=
  (((valueCounts (vals.map lowerStr)).map (·.2)).sum : ℕ)

/-- The 1% threshold `data.sum() * 0.01` of `create_pie_chart`. -/
def pieThreshold (vals : List String) : ℚ := preTotal vals * (1 / 100)

/-- The slices of `create_pie_chart`: value counts of the lower-cased column;
when more than 15 distinct values exist, the values strictly below 1% of the
total are merged into an `"others"` slice; the result is sorted descending by
count. -/
def pieCollapsed (vals : List String) : List (String × ℕ) :=
  let data := valueCounts (vals.map lowerStr)
  if 15 < data.length then
    let thr := pieThreshold vals
    let small := data.filter (fun p => ((p.2 : ℕ) : ℚ) < thr)
    if small.isEmpty then data
    else (data.filter (fun p => ¬ (((p.2 : ℕ) : ℚ) < thr))) ++
      [("others", (small.map (·.2)).sum)]
  else data

def pieData (vals : List String) : List (String × ℕ) :=
  sortDesc (fun p => ((p.2 : ℕ) : ℚ)) (pieCollapsed vals)

/-- The legend percentages: each slice's count against the post-collapse
total. -/
def piePercentages (vals : List String) : List ℚ :=
  let d := pieData vals
  let total : ℚ := (((d.map (·.2)).sum : ℕ) : ℚ)
  d.map (fun p => ((p.2 : ℕ) : ℚ) / total * 100)

/-! ## Helper lemmas about the `launch.py` model -/

theorem toNumeric_ne_str (c : Cell) (s : String) : toNumeric c ≠ Cell.str s := by
  cases c with
  | num q => simp [toNumeric]
  | missing => simp [toNumeric]
  | str t =>
    simp only [toNumeric]
    cases hp : parseNum t <;> simp

theorem str_mem_lowerColIfObj {cells : List Cell} {s : String}
    (h : Cell.str s ∈ lowerColIfObj cells) :
    ∃ t, Cell.str t ∈ cells ∧ s = lowerStr t := by
  unfold lowerColIfObj at h
  by_cases hobj : isObjectCol cells
  · rw [if_pos hobj] at h
    rcases List.mem_map.mp h with ⟨c, hc, hcs⟩
    cases c with
    | str t =>
      refine ⟨t, hc, ?_⟩
      simp only [strLowerCell] at hcs
      exact (Cell.str.injEq _ _ ▸ hcs).symm
    | num q => simp [strLowerCell] at hcs
    | missing => simp [strLowerCell] at hcs
  · rw [if_neg hobj] at h
    exfalso
    apply hobj
    unfold isObjectCol
    rw [List.any_eq_true]
    exact ⟨Cell.str s, h, rfl⟩

theorem isObjectCol_replicate_num (n : ℕ) (q : ℚ) :
    isObjectCol (List.replicate n (Cell.num q)) = false := by
  induction n with
  | zero => rfl
  | succ n ih =>
    simp [isObjectCol, List.replicate_succ, List.any_cons]

theorem validQ_missing_cons (cells : List Cell) :
    validQ (Cell.missing :: cells) = validQ cells := by
  simp [validQ, List.filterMap_cons, toQ]

theorem validQ_replicate_missing (n : ℕ) :
    validQ (List.replicate n Cell.missing) = [] := by
  induction n with
  | zero => rfl
  | succ n ih => simpa [List.replicate_succ, validQ_missing_cons] using ih

/-! ## Concrete frames used by the claims about `launch.py` -/

/-- The spec's normalization example: a `Price` column `["10", "abc", "20"]`,
no `Quantity` column. -/
def c5df : FDf :=
  ⟨[Cell.str "A", Cell.str "B", Cell.str "C"],
   some [Cell.str "10", Cell.str "abc", Cell.str "20"], none, none, none, []⟩

/-- A frame whose mapped `Price` column holds no coercible value at all. -/
def c5bad : FDf :=
  ⟨[Cell.str "i"], some [Cell.str "abc"], none, none, none, []⟩

/-- A frame exercising the constructor's full mutation: mixed-case strings,
string-typed prices, no `Quantity` column. -/
def c10df : FDf :=
  ⟨[Cell.str "Pen", Cell.str "Book"],
   some [Cell.str "3", Cell.str "4.5"], none, none, none,
   [("Payment_Mode", [Cell.str "Cash", Cell.str "UPI"])]⟩

/-! ## Claim theorems about `launch.py` -/

/-- Claim C6: running `basic_statistics` on a frame with the `Quantity`
column absent equals running it on the same frame with a `Quantity` column
explicitly filled with the constant 1 (the constructor synthesizes exactly
that column when `Quantity` is missing, and a constant numeric column passes
unchanged through lower-casing and coercion). -/
theorem claim_C6 (items : List Cell) (prices : List Cell)
    (typeCol : Option (List Cell)) (others : List (String × List Cell)) :
    basicStatistics (initDf ⟨items, some prices, none, typeCol, none, others⟩) =
    basicStatistics (initDf ⟨items, some prices,
      some (List.replicate items.length (Cell.num 1)), typeCol, none, others⟩) := by
  have hobj : lowerColIfObj (List.replicate items.length (Cell.num 1)) =
      List.replicate items.length (Cell.num 1) := by
    simp [lowerColIfObj, isObjectCol_replicate_num]
  have hnum : (List.replicate items.length (Cell.num 1)).map toNumeric =
      List.replicate items.length (Cell.num 1) := by
    rw [List.map_replicate]
    rfl
  simp only [initDf, Option.map_some', Option.map_none', hobj, hnum]

/-- Claim C7: when the mapped `Price` column has zero numerically coercible
values, the overall-analysis pipeline reports the unusable column by name and
stops before any aggregation runs. -/
theorem claim_C7 (priceCol : String) (df : FDf) (cells : List Cell)
    (h1 : df.prices = some cells)
    (h2 : (cells.map toNumeric).all (· = Cell.missing) = true) :
    processTab1 priceCol df = .error ⟨priceCol⟩ := by
  unfold processTab1
  rw [h1]
  simp only [Option.getD_some, h2, if_true]

/-- Witness for C7 at a concrete frame whose price column is `["abc"]`. -/
theorem claim_C7_witness :
    (c5bad.prices = some [Cell.str "abc"] ∧
      (([Cell.str "abc"].map toNumeric).all (· = Cell.missing)) = true) ∧
    processTab1 "Unnamed: 3" c5bad =
      .error ⟨"Unnamed: 3"⟩ :=
  ⟨⟨rfl, by decide⟩, claim_C7 "Unnamed: 3" c5bad [Cell.str "abc"] rfl (by decide)⟩

/-- What `FlexibleDataAnalysis.__init__` does to the caller's dataframe
object: the stored object is replaced by the normalized frame (not a copy),
a `Quantity` and a `Total_Price` column exist afterwards, a frame lacking
`Quantity` is genuinely changed, every string cell is the lower-casing of an
original string cell, and no string survives in the `Price` column. -/
def C10Conclusion (store : List FDf) (ref : ℕ) (df : FDf) : Prop :=
  (runInit store ref)[ref]? = some (initDf df) ∧
  (initDf df).quantityCol.isSome = true ∧
  (initDf df).totalCol.isSome = true ∧
  (df.quantityCol = none → initDf df ≠ df) ∧
  (∀ s : String, Cell.str s ∈ (initDf df).items →
    ∃ t, Cell.str t ∈ df.items ∧ s = lowerStr t) ∧
  (∀ c ∈ ((initDf df).prices.getD []), ∀ s : String, c ≠ Cell.str s) ∧
  (∀ p ∈ (initDf df).otherCols, ∀ s : String, Cell.str s ∈ p.2 →
    ∃ t, s = lowerStr t)

/-- Claim C10: constructing `FlexibleDataAnalysis` over a dataframe mutates
that dataframe in place — the caller's stored object afterwards is the
normalized frame: string columns lower-cased, `Price`/`Quantity` numerically
coerced, the constant-1 `Quantity` added when absent and `Total_Price`
derived. -/
theorem claim_C10 (store : List FDf) (ref : ℕ) (df : FDf)
    (h1 : store[ref]? = some df) (h2 : df.prices.isSome = true) :
    C10Conclusion store ref df := by
  obtain ⟨ps, hps⟩ := Option.isSome_iff_exists.mp h2
  refine ⟨?_, ?_, ?_, ?_, ?_, ?_, ?_⟩
  · unfold runInit
    rw [h1]
    have hlt : ref < store.length := by
      rcases List.getElem?_eq_some.mp h1 with ⟨hlt, _⟩
      exact hlt
    exact List.getElem?_set_self hlt
  · simp [initDf, hps]
  · simp [initDf, hps]
  · intro hq hcon
    have h3 : (initDf df).quantityCol = df.quantityCol := by rw [hcon]
    rw [hq] at h3
    simp [initDf, hps] at h3
  · intro s hs
    simp only [initDf, hps] at hs
    exact str_mem_lowerColIfObj hs
  · intro c hc s
    simp only [initDf, hps, Option.getD_some] at hc
    rcases List.mem_map.mp hc with ⟨c0, _, hc0⟩
    rw [← hc0]
    exact toNumeric_ne_str c0 s
  · intro p hp s hs
    simp only [initDf, hps] at hp
    rcases List.mem_map.mp hp with ⟨p0, _, hp0⟩
    rw [← hp0] at hs
    rcases str_mem_lowerColIfObj hs with ⟨t, _, hst⟩
    exact ⟨t, hst⟩

/-- Witness for C10: a one-object store holding a concrete frame. -/
theorem claim_C10_witness :
    ([c10df][0]? = some c10df ∧ c10df.prices.isSome = true) ∧
    C10Conclusion [c10df] 0 c10df :=
  ⟨⟨rfl, rfl⟩, claim_C10 [c10df] 0 c10df rfl rfl⟩

/-- Claim C5 (amended): normalization coerces `["10", "abc", "20"]` to
`[10, missing, 20]`; `basic_statistics` reports total revenue 30 and mean
unit price 15 (the mean excludes the missing value from numerator and
denominator); missing cells are transparent to the column sum and mean; a
column of only missing values has a missing (`N/A`) mean.  What the code
does not do is keep a *sum* missing: a column with zero valid values sums to
0 (see the counterexample). -/
theorem claim_C5_amended :
    ((initDf c5df).prices = some [Cell.num 10, Cell.missing, Cell.num 20]) ∧
    ((basicStatistics (initDf c5df)).map (·.totalRevenue) = some 30) ∧
    ((basicStatistics (initDf c5df)).map (·.avgUnitPrice) = some (some 15)) ∧
    (∀ cells : List Cell, qSumValid (Cell.missing :: cells) = qSumValid cells ∧
      qMeanValid (Cell.missing :: cells) = qMeanValid cells) ∧
    (∀ n : ℕ, qMeanValid (List.replicate n Cell.missing) = none) := by
  refine ⟨by with_unfolding_all decide, by with_unfolding_all decide,
    by with_unfolding_all decide, ?_, ?_⟩
  · intro cells
    exact ⟨by simp [qSumValid, validQ_missing_cons],
      by simp [qMeanValid, validQ_missing_cons]⟩
  · intro n
    simp [qMeanValid, validQ_replicate_missing]

/-- Counterexample for C5 as stated: over a price column with no valid
value, every derived `Total_Price` cell is missing, yet `basic_statistics`
reports the missing total-revenue aggregate as the number 0 (pandas
`sum` skips `NaN` and sums an empty set to 0), which the caller formats as
`$0.00`, not `N/A` — zero is silently substituted for a missing aggregate. -/
theorem claim_C5_counterexample :
    ((initDf c5bad).totalCol = some [Cell.missing]) ∧
    ((basicStatistics (initDf c5bad)).map (·.totalRevenue) = some 0) ∧
    ((basicStatistics (initDf c5bad)).map (·.avgUnitPrice) = some none) := by
  with_unfolding_all decide

/-! ## Concrete frames used by the claims about `amazon_sales_analysis.py` -/

/-- A loaded frame with a partial schema: `Category` and `Date` columns are
absent. -/
def c1df : ADf :=
  ⟨[⟨"pen", 5, 1, "", ⟨0, 0, 0⟩⟩], true, true, true, false, false⟩

/-- A frame missing `Product`, `Category` and `Date`. -/
def c1wdf : ADf := ⟨[], false, true, true, false, false⟩

/-- 23 categories: 22 one-unit categories and one large one, total sales
20000.  Each small category's percentage is 1/20000·100 = 0.005%, whose
hundredfold 0.5 rounds half-to-even down to 0, an error of −0.005 apiece;
the large category's percentage 99.89% is exact.  The `Sales(%)` column thus
sums to 99.89, off by 0.11 > 0.1.  (The deviation is always a whole number
of hundredths, so at least 23 categories are needed to exceed 0.1.) -/
def c2rows : List ARow :=
  [⟨"big", 19978, 1, "abig", ⟨2024, 1, 1⟩⟩,
   ⟨"p", 1, 1, "p00", ⟨2024, 1, 1⟩⟩,
   ⟨"p", 1, 1, "p01", ⟨2024, 1, 1⟩⟩,
   ⟨"p", 1, 1, "p02", ⟨2024, 1, 1⟩⟩,
   ⟨"p", 1, 1, "p03", ⟨2024, 1, 1⟩⟩,
   ⟨"p", 1, 1, "p04", ⟨2024, 1, 1⟩⟩,
   ⟨"p", 1, 1, "p05", ⟨2024, 1, 1⟩⟩,
   ⟨"p", 1, 1, "p06", ⟨2024, 1, 1⟩⟩,
   ⟨"p", 1, 1, "p07", ⟨2024, 1, 1⟩⟩,
   ⟨"p", 1, 1, "p08", ⟨2024, 1, 1⟩⟩,
   ⟨"p", 1, 1, "p09", ⟨2024, 1, 1⟩⟩,
   ⟨"p", 1, 1, "p10", ⟨2024, 1, 1⟩⟩,
   ⟨"p", 1, 1, "p11", ⟨2024, 1, 1⟩⟩,
   ⟨"p", 1, 1, "p12", ⟨2024, 1, 1⟩⟩,
   ⟨"p", 1, 1, "p13", ⟨2024, 1, 1⟩⟩,
   ⟨"p", 1, 1, "p14", ⟨2024, 1, 1⟩⟩,
   ⟨"p", 1, 1, "p15", ⟨2024, 1, 1⟩⟩,
   ⟨"p", 1, 1, "p16", ⟨2024, 1, 1⟩⟩,
   ⟨"p", 1, 1, "p17", ⟨2024, 1, 1⟩⟩,
   ⟨"p", 1, 1, "p18", ⟨2024, 1, 1⟩⟩,
   ⟨"p", 1, 1, "p19", ⟨2024, 1, 1⟩⟩,
   ⟨"p", 1, 1, "p20", ⟨2024, 1, 1⟩⟩,
   ⟨"p", 1, 1, "p21", ⟨2024, 1, 1⟩⟩]

/-- The distinct category names of `c2rows` in encounter (= ascending)
order. -/
def c2keys : List String :=
  ["abig", "p00", "p01", "p02", "p03", "p04", "p05", "p06", "p07", "p08", "p09", "p10", "p11", "p12", "p13", "p14", "p15", "p16", "p17", "p18", "p19", "p20", "p21"]

/-- `catAggBase c2rows` spelled out; since `"abig"` holds the largest
revenue and the small categories tie, this list is also revenue-descending,
so it equals `catSorted c2rows` as well. -/
def c2base : List CatAgg :=
  [⟨"abig", 19978, 19978, 1, 1⟩,
   ⟨"p00", 1, 1, 1, 1⟩,
   ⟨"p01", 1, 1, 1, 1⟩,
   ⟨"p02", 1, 1, 1, 1⟩,
   ⟨"p03", 1, 1, 1, 1⟩,
   ⟨"p04", 1, 1, 1, 1⟩,
   ⟨"p05", 1, 1, 1, 1⟩,
   ⟨"p06", 1, 1, 1, 1⟩,
   ⟨"p07", 1, 1, 1, 1⟩,
   ⟨"p08", 1, 1, 1, 1⟩,
   ⟨"p09", 1, 1, 1, 1⟩,
   ⟨"p10", 1, 1, 1, 1⟩,
   ⟨"p11", 1, 1, 1, 1⟩,
   ⟨"p12", 1, 1, 1, 1⟩,
   ⟨"p13", 1, 1, 1, 1⟩,
   ⟨"p14", 1, 1, 1, 1⟩,
   ⟨"p15", 1, 1, 1, 1⟩,
   ⟨"p16", 1, 1, 1, 1⟩,
   ⟨"p17", 1, 1, 1, 1⟩,
   ⟨"p18", 1, 1, 1, 1⟩,
   ⟨"p19", 1, 1, 1, 1⟩,
   ⟨"p20", 1, 1, 1, 1⟩,
   ⟨"p21", 1, 1, 1, 1⟩]

/-- Two categories with distinct totals. -/
def c2wrows : List ARow :=
  [⟨"p", 10, 1, "a", ⟨2024, 1, 1⟩⟩, ⟨"q", 20, 2, "b", ⟨2024, 1, 1⟩⟩]

/-- Transactions in January and March 2024 and none in February. -/
def c3rows : List ARow :=
  [⟨"p", 10, 1, "x", ⟨2024, 1, 15⟩⟩, ⟨"q", 5, 2, "x", ⟨2024, 3, 10⟩⟩]

/-- A single-transaction frame (all dates in one calendar month). -/
def c3wrows : List ARow := [⟨"p", 10, 1, "x", ⟨2024, 5, 7⟩⟩]

/-- Two products with tied revenue, encountered in the order `b`, `a`. -/
def c4rows : List ARow :=
  [⟨"b", 5, 1, "x", ⟨2024, 1, 1⟩⟩, ⟨"a", 5, 1, "x", ⟨2024, 1, 1⟩⟩]

/-- One product whose total quantity is zero but whose revenue is positive. -/
def c8rows : List ARow := [⟨"x", 5, 0, "c", ⟨2024, 1, 1⟩⟩]

/-! ## Claim theorems about `amazon_sales_analysis.py` -/

/-- Counterexample for C1 as stated: on a loaded frame whose `Category` and
`Date` columns are absent, `sales_by_category` and `monthly_trends` raise
`KeyError` instead of returning `None` or an empty result. -/
theorem claim_C1_counterexample :
    salesByCategory (some c1df) = AResult.err (PdErr.keyError "Category") ∧
    (salesByCategory (some c1df)).isErr = true ∧
    monthlyTrends (some c1df) = AResult.err (PdErr.keyError "Date") := by
  with_unfolding_all decide

/-- Claim C1 (amended): the aggregations guard only the unloaded state
(`self.df is None`), for which they return a message string; on a loaded
frame each aggregation raises `KeyError` for the first column it accesses
that is absent (`Category` for `sales_by_category`, `Product` for
`top_products`, `Date` for `monthly_trends`) — a partial schema aborts the
operation rather than degrading to an empty result. -/
theorem claim_C1_amended (df : ADf) (n : ℕ)
    (h1 : df.hasCategory = false) (h2 : df.hasProduct = false)
    (h3 : df.hasDate = false) :
    salesByCategory (some df) = AResult.err (PdErr.keyError "Category") ∧
    topProducts (some df) n = AResult.err (PdErr.keyError "Product") ∧
    monthlyTrends (some df) = AResult.err (PdErr.keyError "Date") ∧
    salesByCategory none = AResult.msg "First load excel data" := by
  refine ⟨?_, ?_, ?_, rfl⟩
  · simp [salesByCategory, h1]
  · simp [topProducts, h2]
  · simp [monthlyTrends, h3]

/-- Witness for C1 (amended) at a concrete flagless frame. -/
theorem claim_C1_witness :
    (c1wdf.hasCategory = false ∧ c1wdf.hasProduct = false ∧
      c1wdf.hasDate = false) ∧
    (salesByCategory (some c1wdf) = AResult.err (PdErr.keyError "Category") ∧
      topProducts (some c1wdf) 10 = AResult.err (PdErr.keyError "Product") ∧
      monthlyTrends (some c1wdf) = AResult.err (PdErr.keyError "Date") ∧
      salesByCategory none = AResult.msg "First load excel data") :=
  ⟨⟨rfl, rfl, rfl⟩, claim_C1_amended c1wdf 10 rfl rfl rfl⟩

/-- Counterexample for C8 as stated: for a product with positive revenue and
zero total quantity, `top_products` reports `Average Price` as `inf`
(float division by zero), not as missing (`NaN`). -/
theorem claim_C8_counterexample :
    (topProductsTable c8rows 10).map (·.avgPrice) = [PdVal.inf] ∧
    PdVal.inf ≠ PdVal.nan := by
  with_unfolding_all decide

/-- Claim C8 (amended): the `Sales / Quantity` division in `top_products` is
not guarded: when an item's total quantity is zero and its total revenue is
positive, the reported average price is `inf` (it is `NaN` only in the
`0 / 0` case, and a finite number whenever the quantity is nonzero). -/
theorem claim_C8_amended (rows : List ARow) (n : ℕ) (e : ProdRow)
    (h1 : e ∈ topProductsTable rows n) (h2 : e.quantity = 0)
    (h3 : 0 < e.sales) : e.avgPrice = PdVal.inf := by
  have h1' : e ∈ topAgg rows := by
    have hmem := List.take_subset n _ h1
    exact (mem_sortDesc _ _ e).mp hmem
  rcases List.mem_map.mp h1' with ⟨k, hk, he⟩
  subst he
  dsimp only at h2 h3 ⊢
  rw [h2]
  simp [pdDiv, pdRound2, ne_of_gt h3, h3]

/-- Witness for C8 (amended) at a concrete one-product frame. -/
theorem claim_C8_witness :
    ((⟨"x", 5, 0, PdVal.inf⟩ : ProdRow) ∈ topProductsTable c8rows 10 ∧
      (⟨"x", 5, 0, PdVal.inf⟩ : ProdRow).quantity = 0 ∧
      0 < (⟨"x", 5, 0, PdVal.inf⟩ : ProdRow).sales) ∧
    (⟨"x", 5, 0, PdVal.inf⟩ : ProdRow).avgPrice = PdVal.inf :=
  ⟨⟨by with_unfolding_all decide, by with_unfolding_all decide,
      by with_unfolding_all decide⟩,
    claim_C8_amended c8rows 10 _ (by with_unfolding_all decide)
      (by with_unfolding_all decide) (by with_unfolding_all decide)⟩

/-- Counterexample for C4 as stated: two products tie on total revenue; they
were encountered in the order `b`, `a` but `top_products` returns them as
`a`, `b` — the tie is not broken by first-encountered item name. -/
theorem claim_C4_counterexample :
    ((topProductsTable c4rows 2).map (·.name) = ["a", "b"]) ∧
    ((topProductsTable c4rows 2).map (·.sales) = [5, 5]) ∧
    (c4rows.map (·.product) = ["b", "a"]) := by
  with_unfolding_all decide

/-- Claim C4 (amended): `top_products(n)` returns at most `n` rows, sorted
non-increasing by total revenue; on revenue ties the relative order is
ascending alphabetical item name (pandas `groupby` sorts the group keys and
the revenue sort is stable on that frame), not first-encounter order. -/
theorem claim_C4_amended (rows : List ARow) (n : ℕ) :
    (topProductsTable rows n).length ≤ n ∧
    (topProductsTable rows n).Pairwise (fun a b => b.sales ≤ a.sales) ∧
    (topProductsTable rows n).Pairwise
      (fun a b => a.sales = b.sales → a.name < b.name) := by
  have hnames : (topAgg rows).Pairwise (fun a b => a.name < b.name) := by
    unfold topAgg
    rw [List.pairwise_map]
    exact (pairwise_lt_aSortStrings _ (nodup_firstOccur _)).imp (fun hab => hab)
  have hR := pairwise_keytag_sortDesc (fun x => x.sales) (fun x => x.name)
    (topAgg rows) hnames
  refine ⟨?_, ?_, ?_⟩
  · unfold topProductsTable
    rw [List.length_take]
    exact min_le_left _ _
  · exact (pairwise_ge_sortDesc (fun x => x.sales) (topAgg rows)).sublist
      (List.take_sublist _ _)
  · refine (hR.sublist (List.take_sublist _ _)).imp ?_
    intro a b hab heq
    rcases hab with hlt | ⟨_, hname⟩
    · have hlt' : b.sales < a.sales := hlt
      rw [heq] at hlt'
      exact absurd hlt' (lt_irrefl _)
    · exact hname

/-- The claim's "no zero-filled rows": every resample bucket contains at
least one transaction. -/
def noEmptyBuckets (rows : List ARow) : Prop :=
  ∀ e ∈ monthlyTrendsTable rows, ∃ x ∈ rows, monthKey x.date = monthKey e.date

instance (rows : List ARow) : Decidable (noEmptyBuckets rows) := by
  unfold noEmptyBuckets
  infer_instance

set_option maxRecDepth 4000 in
/-- Counterexample for C3 as stated: with transactions in January and March
2024 only, the resample emits a February bucket with zero sales and zero
quantity — months without transactions are zero-filled, not omitted. -/
theorem claim_C3_counterexample :
    monthlyTrendsTable c3rows =
      [⟨⟨2024, 1, 31⟩, 10, 1⟩, ⟨⟨2024, 2, 29⟩, 0, 0⟩, ⟨⟨2024, 3, 31⟩, 5, 2⟩] ∧
    ¬ noEmptyBuckets c3rows := by
  with_unfolding_all decide

/-- What the monthly resample guarantees: strictly chronological buckets
(hence no duplicate months), each labelled with the last calendar day of its
month; every month from the earliest to the latest transaction month appears
(including, contrary to the claim, zero-filled buckets for empty months in
between); a frame whose dates all fall in one calendar month yields exactly
one bucket. -/
def C3Conclusion (rows : List ARow) : Prop :=
  (monthlyTrendsTable rows).Pairwise (fun a b => dateLt a.date b.date) ∧
  (∀ e ∈ monthlyTrendsTable rows, e.date = monthEndOf (monthKey e.date)) ∧
  (∀ x ∈ rows, monthKey x.date ∈
    (monthlyTrendsTable rows).map (fun e => monthKey e.date)) ∧
  (∀ k, minMonthKey rows ≤ k → k ≤ maxMonthKey rows →
    k ∈ (monthlyTrendsTable rows).map (fun e => monthKey e.date)) ∧
  ((∀ x ∈ rows, ∀ y ∈ rows, monthKey x.date = monthKey y.date) →
    (monthlyTrendsTable rows).length = 1)

set_option maxHeartbeats 1000000 in
/-- Claim C3 (amended): see `C3Conclusion` — ordering, labelling and the
single-month case hold as claimed, but empty months inside the covered range
are zero-filled rather than omitted. -/
theorem claim_C3_amended (rows : List ARow) (h : rows ≠ []) :
    C3Conclusion rows := by
  match rows, h with
  | r :: rs, _ =>
    have hlodef : minMonthKey (r :: rs) =
        ((r :: rs).map (fun x => monthKey x.date)).foldl Nat.min
          (monthKey r.date) := by
      unfold minMonthKey
      rfl
    have hhidef : maxMonthKey (r :: rs) =
        ((r :: rs).map (fun x => monthKey x.date)).foldl Nat.max
          (monthKey r.date) := by
      unfold maxMonthKey
      rfl
    have hout : monthlyTrendsTable (r :: rs) =
        (monthsFrom (minMonthKey (r :: rs))
          (maxMonthKey (r :: rs) + 1 - minMonthKey (r :: rs))).map
          (trendEntry (r :: rs)) := by
      unfold monthlyTrendsTable
      rfl
    have hdate : ∀ k, (trendEntry (r :: rs) k).date = monthEndOf k := by
      intro k
      rfl
    have hlo_le : ∀ x ∈ r :: rs, minMonthKey (r :: rs) ≤ monthKey x.date := by
      intro x hx
      have hmem : monthKey x.date ∈ (r :: rs).map (fun y => monthKey y.date) :=
        List.mem_map.mpr ⟨x, hx, rfl⟩
      rw [hlodef]
      exact foldl_min_le_mem _ _ _ hmem
    have hhi_ge : ∀ x ∈ r :: rs, monthKey x.date ≤ maxMonthKey (r :: rs) := by
      intro x hx
      have hmem : monthKey x.date ∈ (r :: rs).map (fun y => monthKey y.date) :=
        List.mem_map.mpr ⟨x, hx, rfl⟩
      rw [hhidef]
      exact mem_le_foldl_max _ _ _ hmem
    have hlohi : minMonthKey (r :: rs) ≤ maxMonthKey (r :: rs) :=
      le_trans (hlo_le r (by simp)) (hhi_ge r (by simp))
    have hkeys : (monthlyTrendsTable (r :: rs)).map (fun e => monthKey e.date) =
        monthsFrom (minMonthKey (r :: rs))
          (maxMonthKey (r :: rs) + 1 - minMonthKey (r :: rs)) := by
      rw [hout, List.map_map]
      have hcongr : ∀ k ∈ monthsFrom (minMonthKey (r :: rs))
          (maxMonthKey (r :: rs) + 1 - minMonthKey (r :: rs)),
          ((fun e => monthKey e.date) ∘ trendEntry (r :: rs)) k = id k := by
        intro k _
        show monthKey (trendEntry (r :: rs) k).date = k
        rw [hdate, monthKey_monthEndOf]
      rw [List.map_congr_left hcongr, List.map_id]
    refine ⟨?_, ?_, ?_, ?_, ?_⟩
    · rw [hout, List.pairwise_map]
      exact (pairwise_lt_monthsFrom _ _).imp (fun hab => dateLt_monthEndOf hab)
    · intro e he
      rw [hout] at he
      rcases List.mem_map.mp he with ⟨k, _, rfl⟩
      rw [hdate, monthKey_monthEndOf]
    · intro x hx
      rw [hkeys]
      refine (mem_monthsFrom _ _ _).mpr ⟨hlo_le x hx, ?_⟩
      have h1 := hhi_ge x hx
      omega
    · intro k hk1 hk2
      rw [hkeys]
      refine (mem_monthsFrom _ _ _).mpr ⟨hk1, ?_⟩
      omega
    · intro hall
      have hlo1 : minMonthKey (r :: rs) = monthKey r.date := by
        refine le_antisymm (by rw [hlodef]; exact foldl_min_le_init _ _) ?_
        rw [hlodef]
        refine le_foldl_min _ _ _ (le_refl _) ?_
        intro z hz
        rcases List.mem_map.mp hz with ⟨y, hy, rfl⟩
        exact le_of_eq (hall r (by simp) y hy)
      have hhi1 : maxMonthKey (r :: rs) = monthKey r.date := by
        refine le_antisymm ?_ (by rw [hhidef]; exact init_le_foldl_max _ _)
        rw [hhidef]
        refine foldl_max_le _ _ _ (le_refl _) ?_
        intro z hz
        rcases List.mem_map.mp hz with ⟨y, hy, rfl⟩
        exact le_of_eq (hall y hy r (by simp))
      rw [hout, List.length_map, length_monthsFrom, hlo1, hhi1]
      omega

/-- Witness for C3 (amended) at a single-transaction frame. -/
theorem claim_C3_witness : c3wrows ≠ [] ∧ C3Conclusion c3wrows :=
  ⟨by with_unfolding_all decide,
    claim_C3_amended c3wrows (by with_unfolding_all decide)⟩

/-! ## Percentage-sum bound (claim C2) -/

/-- For a nonzero denominator, the rounded percentage column
`round2(t / sum * 100)` over at most 20 entries sums to `100 ± 0.1`:
the unrounded percentages sum to exactly 100, and each entry moves by at
most `1/200` when rounded to two decimals. -/
theorem pdPct_sum_bound (ts : List ℚ) (h1 : ts.length ≤ 20)
    (h2 : ts.sum ≠ 0) :
    ∃ s, pdNumSum (ts.map fun t => pdPct t ts.sum) = some s ∧
      |s - 100| ≤ 1/10 := by
  have hmap : (ts.map fun t => pdPct t ts.sum) =
      ts.map (fun t => PdVal.num (qround2 (t / ts.sum * 100))) :=
    List.map_congr_left (fun t _ => by unfold pdPct; rw [if_neg h2])
  rw [hmap, pdNumSum_map_num]
  refine ⟨_, rfl, ?_⟩
  have hg : (ts.map (fun t => t / ts.sum * 100)).sum = 100 := by
    have step1 : (ts.map (fun t => t / ts.sum * 100)).sum =
        (ts.map (fun t => t * (100 / ts.sum))).sum := by
      refine congrArg List.sum (List.map_congr_left ?_)
      intro t _
      ring
    have step2 : (ts.map (fun t => t * (100 / ts.sum))).sum =
        (ts.map (fun t => t)).sum * (100 / ts.sum) :=
      sum_map_mulconst (fun t => t) (100 / ts.sum) ts
    have step3 : (ts.map (fun t => t)).sum = ts.sum := by
      rw [List.map_id']
    rw [step1, step2, step3]
    field_simp
  have hclose := sum_map_close qround2 id (1/200)
    (fun x => by simpa using qround2_near x)
    (ts.map (fun t => t / ts.sum * 100))
  rw [List.map_map, List.map_id] at hclose
  simp only [Function.comp_def] at hclose
  rw [hg, List.length_map] at hclose
  have hlen : (ts.length : ℚ) * (1/200) ≤ 1/10 := by
    have hc : (ts.length : ℚ) ≤ 20 := by exact_mod_cast h1
    linarith
  linarith [hclose]

/-- Every group of `sales_by_category` has at least one order. -/
theorem catAggBase_orders_pos (rows : List ARow) (x : CatAgg)
    (hx : x ∈ catAggBase rows) : 1 ≤ x.orders := by
  unfold catAggBase at hx
  rcases List.mem_map.mp hx with ⟨k, hk, rfl⟩
  dsimp only
  rw [mem_aSortStrings, mem_firstOccur] at hk
  rcases List.mem_map.mp hk with ⟨r, hr, hrk⟩
  have hmem : r ∈ rows.filter (fun y => y.category = k) := by
    rw [List.mem_filter]
    exact ⟨hr, by simp [hrk]⟩
  have := List.length_pos.mpr (List.ne_nil_of_mem hmem)
  omega

/-- Claim C2: what the percentage columns of `sales_by_category` satisfy. -/
def C2Conclusion (rows : List ARow) : Prop :=
  ∃ s o,
    pdNumSum ((salesByCategoryTable rows).map (·.pctSales)) = some s ∧
    |s - 100| ≤ 1/10 ∧
    pdNumSum ((salesByCategoryTable rows).map (·.pctOrders)) = some o ∧
    |o - 100| ≤ 1/10

/-- Claim C2 (amended): for a nonempty table with at most 20 categories and
a nonzero total-sales denominator, both `Sales(%)` and `Orders(%)` sum to
`100 ± 0.1`.  (With more than 20 categories the per-row rounding errors can
accumulate past 0.1 — see the counterexample.) -/
theorem claim_C2_amended (rows : List ARow)
    (h1 : (salesByCategoryTable rows).length ≤ 20)
    (h2 : ((salesByCategoryTable rows).map (·.totalSales)).sum ≠ 0)
    (h3 : rows ≠ []) : C2Conclusion rows := by
  have hts : (salesByCategoryTable rows).map (·.totalSales) =
      (catSorted rows).map (·.totalSales) := by
    unfold salesByCategoryTable
    rw [List.map_map]
    rfl
  have hlen1 : (salesByCategoryTable rows).length = (catSorted rows).length := by
    unfold salesByCategoryTable
    rw [List.length_map]
  have hcol1 : (salesByCategoryTable rows).map (·.pctSales) =
      ((catSorted rows).map (·.totalSales)).map
        (fun t => pdPct t (((catSorted rows).map (·.totalSales)).sum)) := by
    unfold salesByCategoryTable
    rw [List.map_map, List.map_map]
    rfl
  have hcol2 : (salesByCategoryTable rows).map (·.pctOrders) =
      ((catSorted rows).map (fun x => ((x.orders : ℕ) : ℚ))).map
        (fun t => pdPct t
          (((catSorted rows).map (fun x => ((x.orders : ℕ) : ℚ))).sum)) := by
    unfold salesByCategoryTable
    rw [List.map_map, List.map_map]
    rfl
  have hlen2 : ((catSorted rows).map (·.totalSales)).length ≤ 20 := by
    rw [List.length_map]
    rw [hlen1] at h1
    exact h1
  have hsum2 : ((catSorted rows).map (·.totalSales)).sum ≠ 0 := by
    rw [hts] at h2
    exact h2
  rcases pdPct_sum_bound _ hlen2 hsum2 with ⟨s, hs1, hs2⟩
  have hone : ∀ q ∈ (catSorted rows).map (fun x => ((x.orders : ℕ) : ℚ)),
      1 ≤ q := by
    intro q hq
    rcases List.mem_map.mp hq with ⟨x, hx, rfl⟩
    have hx' : x ∈ catAggBase rows := (mem_sortDesc _ _ x).mp hx
    have := catAggBase_orders_pos rows x hx'
    exact_mod_cast this
  have hnenil : (catSorted rows).map (fun x => ((x.orders : ℕ) : ℚ)) ≠ [] := by
    intro hcon
    have hlen0 := congrArg List.length hcon
    rw [List.length_map] at hlen0
    unfold catSorted at hlen0
    rw [length_sortDesc] at hlen0
    unfold catAggBase at hlen0
    rw [List.length_map] at hlen0
    have hper := (aSortStrings_perm
      (firstOccur (rows.map (·.category)))).length_eq
    rw [hper] at hlen0
    have hfo := firstOccur_ne_nil (rows.map (·.category))
      (by
        intro hmap0
        apply h3
        cases rows with
        | nil => rfl
        | cons a l => simp at hmap0)
    have := List.length_pos.mpr hfo
    simp at hlen0
    exact hfo hlen0
  have hsumo : ((catSorted rows).map (fun x => ((x.orders : ℕ) : ℚ))).sum ≠ 0 := by
    have := one_le_sum_of_mem hone hnenil
    linarith
  have hleno : ((catSorted rows).map (fun x => ((x.orders : ℕ) : ℚ))).length ≤ 20 := by
    rw [List.length_map]
    rw [hlen1] at h1
    exact h1
  rcases pdPct_sum_bound _ hleno hsumo with ⟨o, ho1, ho2⟩
  refine ⟨s, o, ?_, hs2, ?_, ho2⟩
  · rw [hcol1]
    exact hs1
  · rw [hcol2]
    exact ho1

/-- `firstOccur` of a duplicate-free list is the list itself. -/
theorem firstOccur_eq_self {α : Type} [DecidableEq α] (l : List α)
    (h : l.Nodup) : firstOccur l = l := by
  have aux : ∀ (l acc : List α), l.Nodup → (∀ a ∈ l, a ∉ acc) →
      l.foldl (fun acc x => if x ∈ acc then acc else acc ++ [x]) acc =
        acc ++ l := by
    intro l
    induction l with
    | nil => intro acc _ _; simp
    | cons x xs ih =>
      intro acc hnd hni
      rcases List.pairwise_cons.mp hnd with ⟨hx, hxs⟩
      simp only [List.foldl_cons]
      rw [if_neg (hni x (List.mem_cons_self x xs))]
      have hstep := ih (acc ++ [x]) hxs (by
        intro a ha hmem
        rcases List.mem_append.mp hmem with h1 | h1
        · exact hni a (List.mem_cons_of_mem x ha) h1
        · rw [List.mem_singleton] at h1
          exact hx a ha h1.symm)
      rw [hstep]
      simp
  have h0 := aux l [] h (by simp)
  simpa [firstOccur] using h0

/-- Insertion into a list of smaller-or-equal strings appends at the end. -/
theorem insertAsc_eq_append (x : String) (acc : List String)
    (h : ∀ a ∈ acc, ¬ x < a) : insertAsc x acc = acc ++ [x] := by
  induction acc with
  | nil => rfl
  | cons y ys ih =>
    simp only [insertAsc]
    rw [if_neg (h y (by simp))]
    rw [ih (fun a ha => h a (by simp [ha]))]
    rfl

/-- Sorting an already ascending list of strings is the identity. -/
theorem aSortStrings_eq_self (l : List String) (h : l.Pairwise (· ≤ ·)) :
    aSortStrings l = l := by
  have aux : ∀ (l acc : List String), (∀ a ∈ acc, ∀ b ∈ l, ¬ b < a) →
      l.Pairwise (· ≤ ·) →
      l.foldl (fun acc x => insertAsc x acc) acc = acc ++ l := by
    intro l
    induction l with
    | nil => intro acc _ _; simp
    | cons x xs ih =>
      intro acc hcross hpw
      rcases List.pairwise_cons.mp hpw with ⟨hx, hxs⟩
      simp only [List.foldl_cons]
      rw [insertAsc_eq_append x acc (fun a ha => hcross a ha x (by simp))]
      have hstep := ih (acc ++ [x]) (by
        intro a ha b hb
        rcases List.mem_append.mp ha with h1 | h1
        · exact hcross a h1 b (List.mem_cons_of_mem x hb)
        · rw [List.mem_singleton] at h1
          subst h1
          exact not_lt_of_le (hx b hb)) hxs
      rw [hstep]
      simp
  have h0 := aux l [] (by simp) h
  simpa [aSortStrings] using h0

/-- Inserting an element no larger than anything present appends at the
end. -/
theorem insertDesc_eq_append {α : Type} (key : α → ℚ) (x : α) (acc : List α)
    (h : ∀ a ∈ acc, key x ≤ key a) : insertDesc key x acc = acc ++ [x] := by
  induction acc with
  | nil => rfl
  | cons y ys ih =>
    simp only [insertDesc]
    rw [if_pos (h y (by simp))]
    rw [ih (fun a ha => h a (by simp [ha]))]
    rfl

/-- The stable revenue sort is the identity on an already descending
list. -/
theorem sortDesc_eq_self {α : Type} (key : α → ℚ) (l : List α)
    (h : l.Pairwise (fun a b => key b ≤ key a)) : sortDesc key l = l := by
  have aux : ∀ (l acc : List α), (∀ a ∈ acc, ∀ b ∈ l, key b ≤ key a) →
      l.Pairwise (fun a b => key b ≤ key a) →
      l.foldl (fun acc x => insertDesc key x acc) acc = acc ++ l := by
    intro l
    induction l with
    | nil => intro acc _ _; simp
    | cons x xs ih =>
      intro acc hcross hpw
      rcases List.pairwise_cons.mp hpw with ⟨hx, hxs⟩
      simp only [List.foldl_cons]
      rw [insertDesc_eq_append key x acc (fun a ha => hcross a ha x (by simp))]
      have hstep := ih (acc ++ [x]) (by
        intro a ha b hb
        rcases List.mem_append.mp ha with h1 | h1
        · exact hcross a h1 b (List.mem_cons_of_mem x hb)
        · rw [List.mem_singleton] at h1
          subst h1
          exact hx b hb) hxs
      rw [hstep]
      simp
  have h0 := aux l [] (by simp) h
  simpa [sortDesc] using h0

/-- `rhe` is the identity on integers. -/
theorem rhe_intCast (n : ℤ) : rhe (n : ℚ) = n := by
  unfold rhe
  rw [Int.floor_intCast]
  norm_num

/-- The borderline case of round-half-even at one half: down to `0`. -/
theorem rhe_half : rhe ((1:ℚ)/2) = 0 := by
  unfold rhe
  rw [show ⌊(1:ℚ)/2⌋ = 0 by norm_num]
  norm_num

/-- `.round(2)` is the identity on integers. -/
theorem qround2_intCast (n : ℤ) : qround2 (n : ℚ) = n := by
  unfold qround2
  rw [show ((n:ℚ) * 100) = ((n * 100 : ℤ) : ℚ) by push_cast; ring, rhe_intCast]
  push_cast
  field_simp

/-- `.round(2)` is the identity on hundredths. -/
theorem qround2_div100 (n : ℤ) : qround2 ((n : ℚ)/100) = (n : ℚ)/100 := by
  unfold qround2
  rw [div_mul_cancel₀ ((n:ℚ)) (by norm_num : (100:ℚ) ≠ 0), rhe_intCast]

/-- The tie-breaking case driving the counterexample: `0.005` rounds
half-to-even down to `0`, not up to `0.01`. -/
theorem qround2_half_pct : qround2 ((1:ℚ)/200) = 0 := by
  unfold qround2
  rw [show (1:ℚ)/200 * 100 = 1/2 by norm_num, rhe_half]
  norm_num

theorem qround2_19978 : qround2 (19978:ℚ) = 19978 := by
  have h := qround2_intCast 19978
  push_cast at h
  exact h

theorem qround2_one : qround2 (1:ℚ) = 1 := by
  have h := qround2_intCast 1
  push_cast at h
  exact h

/-- The large category's `Sales(%)` entry: `19978/20000·100 = 99.89`
exactly. -/
theorem pdPct_c2big : pdPct 19978 20000 = PdVal.num (9989/100) := by
  unfold pdPct
  rw [if_neg (by norm_num : ¬ (20000:ℚ) = 0)]
  rw [show (19978:ℚ)/20000*100 = ((9989:ℤ):ℚ)/100 by norm_num, qround2_div100]
  norm_num

/-- A small category's `Sales(%)` entry: `1/20000·100 = 0.005` rounds to
`0`. -/
theorem pdPct_c2small : pdPct 1 20000 = PdVal.num 0 := by
  unfold pdPct
  rw [if_neg (by norm_num : ¬ (20000:ℚ) = 0)]
  rw [show (1:ℚ)/20000*100 = 1/200 by norm_num, qround2_half_pct]

/-- With duplicate-free categories each group filter of `catAggBase` is the
singleton of its row. -/
theorem filter_category_singleton (rows : List ARow) (r : ARow)
    (h : (rows.map (·.category)).Nodup) (hr : r ∈ rows) :
    rows.filter (fun y => y.category = r.category) = [r] := by
  induction rows with
  | nil => cases hr
  | cons a as ih =>
    rw [List.map_cons, List.nodup_cons] at h
    rcases h with ⟨hna, hnd⟩
    rcases List.mem_cons.mp hr with rfl | hr'
    · rw [List.filter_cons_of_pos (by simp)]
      have hnone : as.filter (fun y => y.category = r.category) = [] := by
        rw [List.filter_eq_nil_iff]
        intro y hy
        simp only [decide_eq_true_eq]
        intro he
        exact hna (List.mem_map.mpr ⟨y, hy, he⟩)
      rw [hnone]
    · have hne : a.category ≠ r.category := by
        intro he
        exact hna (List.mem_map.mpr ⟨r, hr', he.symm⟩)
      rw [List.filter_cons_of_neg (by simpa using hne)]
      exact ih hnd hr'

/-- On rows whose categories are pairwise distinct and already ascending,
`catAggBase` is a row-wise map: every group is a singleton. -/
theorem catAggBase_nodup (rows : List ARow)
    (hnd : (rows.map (·.category)).Nodup)
    (hsd : (rows.map (·.category)).Pairwise (· ≤ ·)) :
    catAggBase rows = rows.map (fun r =>
      { name := r.category, totalSales := qround2 r.sales,
        avgSales := qround2 r.sales, orders := 1,
        units := qround2 r.quantity }) := by
  unfold catAggBase
  rw [firstOccur_eq_self _ hnd, aSortStrings_eq_self _ hsd, List.map_map]
  apply List.map_congr_left
  intro r hr
  have hfilt := filter_category_singleton rows r hnd hr
  simp only [Function.comp_apply, hfilt, List.map_cons, List.map_nil,
    List.sum_cons, List.sum_nil, add_zero, List.length_cons,
    List.length_nil, zero_add, Nat.cast_one, div_one]

set_option maxRecDepth 2000 in
/-- Counterexample for C2 as stated: over 23 categories the `Sales(%)`
column sums to 99.89, which misses 100 by 0.11 — outside the claimed
± 0.1 tolerance. -/
theorem claim_C2_counterexample :
    pdNumSum ((salesByCategoryTable c2rows).map (·.pctSales)) =
      some (9989/100) ∧
    ¬ (|(9989 : ℚ)/100 - 100| ≤ 1/10) := by
  have hmap : c2rows.map (·.category) = c2keys := by
    with_unfolding_all decide
  have hbase : catAggBase c2rows = c2base := by
    rw [catAggBase_nodup c2rows (by rw [hmap]; with_unfolding_all decide)
      (by rw [hmap]; with_unfolding_all decide)]
    simp only [c2rows, c2base, List.map_cons, List.map_nil]
    norm_num [qround2_19978, qround2_one]
  have hsorted : catSorted c2rows = c2base := by
    unfold catSorted
    rw [hbase]
    exact sortDesc_eq_self _ c2base (by with_unfolding_all decide)
  have h4 : catSalesTotal c2rows = 20000 := by
    unfold catSalesTotal
    rw [hsorted]
    simp only [c2base, List.map_cons, List.map_nil, List.sum_cons,
      List.sum_nil]
    norm_num
  have h6 : (salesByCategoryTable c2rows).map (·.pctSales) =
      c2base.map (fun x => pdPct x.totalSales (catSalesTotal c2rows)) := by
    unfold salesByCategoryTable
    rw [hsorted, List.map_map]
    rfl
  constructor
  · rw [h6, h4]
    simp only [c2base, List.map_cons, List.map_nil]
    simp only [pdPct_c2big, pdPct_c2small]
    simp only [pdNumSum, Option.map_some', Option.map_none']
    norm_num
  · rw [show (9989:ℚ)/100 - 100 = -(11/100) by norm_num, abs_neg,
      abs_of_pos (by norm_num : (0:ℚ) < 11/100)]
    norm_num

/-- Witness for C2 (amended) at a two-category frame. -/
theorem claim_C2_witness :
    ((salesByCategoryTable c2wrows).length ≤ 20 ∧
      ((salesByCategoryTable c2wrows).map (·.totalSales)).sum ≠ 0 ∧
      c2wrows ≠ []) ∧
    C2Conclusion c2wrows :=
  ⟨⟨by with_unfolding_all decide, by with_unfolding_all decide,
      by with_unfolding_all decide⟩,
    claim_C2_amended c2wrows (by with_unfolding_all decide)
      (by with_unfolding_all decide) (by with_unfolding_all decide)⟩

/-! ## C9: the `create_pie_chart` collapse policy -/

/-- 17 distinct singleton categories: each holds 1/17 ≈ 5.9 % of the total,
so none falls below the 1 % threshold and nothing is collapsed. -/
def c9vals : List String :=
  ["a", "b", "c", "d", "e", "f", "g", "h", "i", "j", "k", "l", "m", "n",
   "o", "q", "r"]

/-- 86 copies of one category plus 15 singleton categories: 16 distinct
values in a total of 101, so each singleton is below the 1 % threshold
(1 < 1.01) and all 15 are collapsed into `"others"`. -/
def c9w : List String :=
  List.replicate 86 "b" ++
  ["c1", "c2", "c3", "c4", "c5", "c6", "c7", "c8", "c9", "ca", "cb", "cc",
   "cd", "ce", "cf"]

/-- What `create_pie_chart` actually guarantees on a wide column: every
kept slice other than `"others"` meets the 1 % threshold, slices are sorted
descending by count, legend percentages are taken against the post-collapse
total and sum to 100, and the slice count is bounded by the number of
at-least-1 % categories plus one — not by 16. -/
def C9Conclusion (vals : List String) : Prop :=
  (∀ p ∈ pieData vals,
    pieThreshold vals ≤ ((p.2 : ℕ) : ℚ) ∨ p.1 = "others") ∧
  (pieData vals).Pairwise (fun a b => b.2 ≤ a.2) ∧
  (((pieData vals).map (·.2)).sum ≠ 0 → (piePercentages vals).sum = 100) ∧
  (pieData vals).length ≤
    ((valueCounts (vals.map lowerStr)).filter
      (fun p => pieThreshold vals ≤ ((p.2 : ℕ) : ℚ))).length + 1

/-- Casting a sum of slice counts to ℚ commutes with summing the casts. -/
theorem sum_cast_pairs (l : List (String × ℕ)) :
    (l.map (fun p => ((p.2 : ℕ) : ℚ))).sum = (((l.map (·.2)).sum : ℕ) : ℚ) := by
  induction l with
  | nil => simp
  | cons x xs ih => simp [ih, Nat.cast_add]

/-- Claim C9 (amended): on more than 15 distinct lower-cased values,
`create_pie_chart` keeps only at-least-1 % categories besides the
`"others"` bucket, sorts the slices descending, computes the legend
percentages against the post-collapse total (summing to 100), and emits at
most one slice more than there are at-least-1 % categories; the flat bound
of 16 slices claimed by the spec does not hold. -/
theorem claim_C9_amended (vals : List String)
    (h15 : 15 < (valueCounts (vals.map lowerStr)).length) :
    C9Conclusion vals := by
  unfold C9Conclusion
  refine ⟨?_, ?_, ?_, ?_⟩
  · intro p hp
    have hp' : p ∈ pieCollapsed vals := (mem_sortDesc _ _ p).mp hp
    simp only [pieCollapsed] at hp'
    rw [if_pos h15] at hp'
    split at hp'
    case isTrue hsm =>
      left
      have hall := List.filter_eq_nil_iff.mp (List.isEmpty_iff.mp hsm)
      have hc := hall p hp'
      simp only [decide_eq_true_eq] at hc
      exact not_lt.mp hc
    case isFalse hsm =>
      rcases List.mem_append.mp hp' with hk | ho
      · left
        have hc := List.of_mem_filter hk
        simp only [decide_eq_true_eq] at hc
        exact not_lt.mp hc
      · right
        rw [List.mem_singleton] at ho
        rw [ho]
  · unfold pieData
    exact (pairwise_ge_sortDesc (fun p => ((p.2 : ℕ) : ℚ))
      (pieCollapsed vals)).imp (fun hab => by exact_mod_cast hab)
  · intro hnz
    have hS : ((((pieData vals).map (·.2)).sum : ℕ) : ℚ) ≠ 0 := by
      exact_mod_cast hnz
    show ((pieData vals).map (fun p => ((p.2 : ℕ) : ℚ) /
        ((((pieData vals).map (·.2)).sum : ℕ) : ℚ) * 100)).sum = 100
    rw [show (fun p : String × ℕ => ((p.2 : ℕ) : ℚ) /
        ((((pieData vals).map (·.2)).sum : ℕ) : ℚ) * 100) =
        (fun p : String × ℕ => ((p.2 : ℕ) : ℚ) *
        (100 / ((((pieData vals).map (·.2)).sum : ℕ) : ℚ))) from by
      funext p
      ring]
    rw [sum_map_mulconst]
    rw [sum_cast_pairs]
    rw [mul_comm]
    exact div_mul_cancel₀ 100 hS
  · unfold pieData
    rw [length_sortDesc]
    simp only [pieCollapsed]
    rw [if_pos h15]
    split
    case isTrue hsm =>
      have hall := List.filter_eq_nil_iff.mp (List.isEmpty_iff.mp hsm)
      have heq : (valueCounts (vals.map lowerStr)).filter
          (fun p => pieThreshold vals ≤ ((p.2 : ℕ) : ℚ)) =
          valueCounts (vals.map lowerStr) := by
        apply List.filter_eq_self.mpr
        intro a ha
        have hc := hall a ha
        simp only [decide_eq_true_eq] at hc ⊢
        exact not_lt.mp hc
      rw [heq]
      omega
    case isFalse hsm =>
      rw [List.length_append]
      have heq : (valueCounts (vals.map lowerStr)).filter
          (fun p => ¬ (((p.2 : ℕ) : ℚ) < pieThreshold vals)) =
          (valueCounts (vals.map lowerStr)).filter
          (fun p => pieThreshold vals ≤ ((p.2 : ℕ) : ℚ)) := by
        apply List.filter_congr
        intro a _
        exact decide_eq_decide.mpr not_lt
      rw [heq]
      simp

set_option maxRecDepth 4000 in
/-- Counterexample for C9 as stated: 17 equal singleton categories exceed
the 15-category trigger, yet each holds about 5.9 % ≥ 1 % of the total, so
nothing is collapsed and 17 > 16 slices are rendered. -/
theorem claim_C9_counterexample :
    15 < (valueCounts (c9vals.map lowerStr)).length ∧
    ¬ ((pieData c9vals).length ≤ 16) := by
  constructor
  · with_unfolding_all decide
  · with_unfolding_all decide

set_option maxRecDepth 4000 in
/-- Witness for C9 (amended): a 101-value column with 16 distinct values,
15 of them below the 1 % threshold. -/
theorem claim_C9_witness :
    15 < (valueCounts (c9w.map lowerStr)).length ∧ C9Conclusion c9w :=
  ⟨by with_unfolding_all decide,
    claim_C9_amended c9w (by with_unfolding_all decide)⟩
